import Mathlib

/-!
Shallow embedding of the NKRO report encoder of `src/hid.rs`
(`NKROReport` and its `pressed`, `set_all`, `from_iter`, `as_bytes`).

A key code is modelled as its 8-bit HID usage value (a `Nat`; the numeric
values follow the HID keyboard usage table used by the `KeyCode` enum of the
external `keyberon` crate: `No = 0`, `ErrorRollOver = 1`, `PostFail = 2`,
`ErrorUndefined = 3`, ordinary keys from 4 upward — `A = 4`, `B = 5`, … —
and the eight modifiers `LCtrl = 224` … `RGui = 231`).

A report is the 21-byte buffer `NKROReport([u8; 21])`, modelled as a
function `Fin 21 → Nat` whose values the operations keep below 256.
-/

/-- The 21-byte report buffer `NKROReport([u8; 21])`; byte `i` of the
struct is `rep i`. -/
abbrev Report := Fin 21 → Nat

/-- `NKROReport::default()`: all 21 bytes zero. -/
def emptyReport : Report := fun _ => 0

/-- Write value `v` into byte `j`, leaving every other byte unchanged
(a single in-place store `self.0[j] = v`). -/
def updateByte (rep : Report) (j : Fin 21) (v : Nat) : Report :=
  fun i => if i = j then v else rep i

/-- `NKROReport::set_all`: `for c in &mut self.0[2..8] { *c = kc as u8 }` —
every byte of the boot region (indices 2 to 7) becomes `kc`. -/
def setAll (rep : Report) (kc : Nat) : Report :=
  fun i => if 2 ≤ (i : Nat) ∧ (i : Nat) < 8 then kc else rep i

/-- `self.0[j] |= 1 << b`: or the single bit `b` into byte `j`. -/
def setBit (rep : Report) (j : Fin 21) (b : Nat) : Report :=
  updateByte rep j (rep j ||| (1 <<< b))

/-- `self.0[2..].iter_mut().find(|c| **c == 0)`: index of the first zero
byte at position `i` or later in the 21-byte buffer.  The scan is written
with a structural fuel argument (one unit per remaining slot); callers pass
enough fuel to cover the whole buffer, so it is exactly the linear scan of
the source.  Note the source scans from index 2 to the END of the buffer,
not only the 6 boot slots. -/
def findZeroFrom (rep : Report) (i : Nat) : Nat → Option (Fin 21)
  | 0 => none
  | fuel + 1 =>
    if h : i < 21 then
      if rep ⟨i, h⟩ = 0 then some ⟨i, h⟩ else findZeroFrom rep (i + 1) fuel
    else none

/-- The boot-array half of the ordinary-key arm of `pressed`:
`self.0[2..].iter_mut().find(|c| **c == 0).map(|c| *c = kc as u8)
.unwrap_or_else(|| self.set_all(ErrorRollOver))` — write `kc` into the
first zero byte at index ≥ 2, or `set_all(ErrorRollOver)` (value 1) when
none exists.  19 slots (indices 2 … 20) are scanned. -/
def bootPlace (rep : Report) (kc : Nat) : Report :=
  match findZeroFrom rep 2 19 with
  | some j => updateByte rep j kc
  | none => setAll rep 1

/-- The bitmap half of the ordinary-key arm of `pressed`: the 13-arm match
on `kc_bit` over `bits = &mut self.0[8..]`, so `bits[k]` is byte `8 + k`
of the report.  Values 0–3 and anything above 103 fall through to `()`. -/
def nkroBitmap (rep : Report) (kc : Nat) : Report :=
  if kc ≤ 3 then rep
  else if kc ≤ 7 then setBit rep ⟨8, by omega⟩ kc
  else if kc ≤ 15 then setBit rep ⟨9, by omega⟩ (kc - 8)
  else if kc ≤ 23 then setBit rep ⟨10, by omega⟩ (kc - 16)
  else if kc ≤ 31 then setBit rep ⟨11, by omega⟩ (kc - 24)
  else if kc ≤ 39 then setBit rep ⟨12, by omega⟩ (kc - 32)
  else if kc ≤ 47 then setBit rep ⟨13, by omega⟩ (kc - 40)
  else if kc ≤ 55 then setBit rep ⟨14, by omega⟩ (kc - 48)
  else if kc ≤ 63 then setBit rep ⟨15, by omega⟩ (kc - 56)
  else if kc ≤ 71 then setBit rep ⟨16, by omega⟩ (kc - 64)
  else if kc ≤ 79 then setBit rep ⟨17, by omega⟩ (kc - 72)
  else if kc ≤ 87 then setBit rep ⟨18, by omega⟩ (kc - 80)
  else if kc ≤ 95 then setBit rep ⟨19, by omega⟩ (kc - 88)
  else if kc ≤ 103 then setBit rep ⟨20, by omega⟩ (kc - 96)
  else rep

/-- Modelled from the spec: `KeyCode::is_modifier` of the external
`keyberon` crate — the 8 modifier codes occupy the contiguous usage range
`LCtrl = 224` … `RGui = 231`. -/
def isModifier (kc : Nat) : Bool := decide (224 ≤ kc) && decide (kc ≤ 231)

/-- Modelled from the spec: `KeyCode::as_modifier_bit` of the external
`keyberon` crate — one bit at the position equal to the code's offset from
the start of the modifier range (`1 << (kc - 224)`). -/
def asModifierBit (kc : Nat) : Nat := 1 <<< (kc - 224)

/-- `NKROReport::pressed`: the four-way dispatch on the key code —
`No = 0` is a no-op; `ErrorRollOver | PostFail | ErrorUndefined`
(values 1, 2, 3) call `set_all(kc)`; a modifier ors its bit into byte 0;
every other code first does the boot-array placement and then the bitmap
placement. -/
def pressed (rep : Report) (kc : Nat) : Report :=
  if kc = 0 then rep
  else if kc = 1 ∨ kc = 2 ∨ kc = 3 then setAll rep kc
  else if isModifier kc then updateByte rep ⟨0, by omega⟩ (rep ⟨0, by omega⟩ ||| asModifierBit kc)
  else nkroBitmap (bootPlace rep kc) kc

/-- `NKROReport::from_iter`: start from `default()` and call `pressed`
once per element, in order. -/
def fromIter (l : List Nat) : Report := l.foldl pressed emptyReport

/-- `NKROReport::as_bytes`: the report as its 21-byte sequence. -/
def asBytes (rep : Report) : List Nat := List.ofFn rep

/-- Byte `i` of the transported buffer (0 when `i` is out of range). -/
def byteAt (rep : Report) (i : Nat) : Nat := (asBytes rep).getD i 0

/-- The key codes handled by the catch-all arm of `pressed`: 8-bit values
that are not `No`, not a global-error code and not a modifier. -/
def isOrdinary (k : Nat) : Prop := 4 ≤ k ∧ k ≤ 255 ∧ ¬ (224 ≤ k ∧ k ≤ 231)

instance (k : Nat) : Decidable (isOrdinary k) := by
  unfold isOrdinary
  infer_instance

/-! ### Basic facts about the byte operations -/

theorem updateByte_apply_self (rep : Report) (j : Fin 21) (v : Nat) :
    updateByte rep j v j = v := by
  simp [updateByte]

theorem updateByte_apply_ne (rep : Report) (j : Fin 21) (v : Nat) {i : Fin 21}
    (h : i ≠ j) : updateByte rep j v i = rep i := by
  simp [updateByte, h]

theorem setAll_apply_boot (rep : Report) (kc : Nat) {i : Fin 21}
    (h2 : 2 ≤ (i : Nat)) (h8 : (i : Nat) < 8) : setAll rep kc i = kc := by
  simp [setAll, h2, h8]

theorem setAll_apply_outside (rep : Report) (kc : Nat) {i : Fin 21}
    (h : (i : Nat) < 2 ∨ 8 ≤ (i : Nat)) : setAll rep kc i = rep i := by
  rcases h with h | h <;> simp [setAll] <;> omega

theorem setBit_apply_self (rep : Report) (j : Fin 21) (b : Nat) :
    setBit rep j b j = rep j ||| (1 <<< b) := by
  simp [setBit, updateByte]

theorem setBit_apply_ne (rep : Report) (j : Fin 21) (b : Nat) {i : Fin 21}
    (h : i ≠ j) : setBit rep j b i = rep i := by
  simp [setBit, updateByte, h]

theorem setBit_testBit_mono (rep : Report) (j : Fin 21) (b : Nat)
    (i : Fin 21) (n : Nat) (h : Nat.testBit (rep i) n = true) :
    Nat.testBit (setBit rep j b i) n = true := by
  by_cases hij : i = j
  · subst hij
    simp [setBit_apply_self, Nat.testBit_or, h]
  · rw [setBit_apply_ne rep j b hij]
    exact h

/-! ### The boot-slot scan -/

theorem findZeroFrom_some_ge (rep : Report) :
    ∀ (fuel i : Nat) (j : Fin 21), findZeroFrom rep i fuel = some j →
      i ≤ (j : Nat) ∧ rep j = 0 := by
  intro fuel
  induction fuel with
  | zero => intro i j h; simp [findZeroFrom] at h
  | succ fuel ih =>
    intro i j h
    rw [findZeroFrom] at h
    by_cases hi : i < 21
    · simp only [hi, dif_pos] at h
      by_cases h0 : rep ⟨i, hi⟩ = 0
      · simp only [h0, if_pos] at h
        cases h
        exact ⟨Nat.le_refl i, h0⟩
      · simp only [h0, if_neg] at h
        have := ih (i + 1) j h
        exact ⟨by omega, this.2⟩
    · simp [hi] at h

theorem findZeroFrom_eq_some (rep : Report) :
    ∀ (fuel i m : Nat) (hm : m < 21), i ≤ m → m - i < fuel →
      rep ⟨m, hm⟩ = 0 →
      (∀ j (hj : j < 21), i ≤ j → j < m → rep ⟨j, hj⟩ ≠ 0) →
      findZeroFrom rep i fuel = some ⟨m, hm⟩ := by
  intro fuel
  induction fuel with
  | zero => intro i m hm him hfuel h0 hne; omega
  | succ fuel ih =>
    intro i m hm him hfuel h0 hne
    have hi : i < 21 := by omega
    rw [findZeroFrom]
    simp only [hi, dif_pos]
    by_cases h0i : rep ⟨i, hi⟩ = 0
    · have : i = m := by
        by_contra hne'
        exact hne i hi (Nat.le_refl i) (by omega) h0i
      subst this
      simp [h0i]
    · simp only [h0i, if_neg]
      have him' : i + 1 ≤ m := by
        rcases Nat.eq_or_lt_of_le him with h | h
        · exact absurd (h ▸ h0) h0i
        · omega
      exact ih (i + 1) m hm him' (by omega) h0
        (fun j hj hj1 hj2 => hne j hj (by omega) hj2)

/-! ### Shape of the bitmap update -/

theorem nkroBitmap_of_gt (rep : Report) (kc : Nat) (h : 103 < kc) :
    nkroBitmap rep kc = rep := by
  unfold nkroBitmap
  rw [if_neg (show ¬ kc ≤ 3 by omega), if_neg (show ¬ kc ≤ 7 by omega),
    if_neg (show ¬ kc ≤ 15 by omega), if_neg (show ¬ kc ≤ 23 by omega),
    if_neg (show ¬ kc ≤ 31 by omega), if_neg (show ¬ kc ≤ 39 by omega),
    if_neg (show ¬ kc ≤ 47 by omega), if_neg (show ¬ kc ≤ 55 by omega),
    if_neg (show ¬ kc ≤ 63 by omega), if_neg (show ¬ kc ≤ 71 by omega),
    if_neg (show ¬ kc ≤ 79 by omega), if_neg (show ¬ kc ≤ 87 by omega),
    if_neg (show ¬ kc ≤ 95 by omega), if_neg (show ¬ kc ≤ 103 by omega)]

theorem nkroBitmap_eq_setBit (rep : Report) (kc : Nat) (h4 : 4 ≤ kc)
    (h103 : kc ≤ 103) :
    nkroBitmap rep kc = setBit rep ⟨8 + kc / 8, by omega⟩ (kc % 8) := by
  unfold nkroBitmap
  rw [if_neg (show ¬ kc ≤ 3 by omega)]
  by_cases c1 : kc ≤ 7
  · rw [if_pos c1]
    have e1 : 8 + kc / 8 = 8 := by omega
    have e2 : kc % 8 = kc := by omega
    simp only [e1, e2]
  rw [if_neg c1]
  by_cases c2 : kc ≤ 15
  · rw [if_pos c2]
    have e1 : 8 + kc / 8 = 9 := by omega
    have e2 : kc % 8 = kc - 8 := by omega
    simp only [e1, e2]
  rw [if_neg c2]
  by_cases c3 : kc ≤ 23
  · rw [if_pos c3]
    have e1 : 8 + kc / 8 = 10 := by omega
    have e2 : kc % 8 = kc - 16 := by omega
    simp only [e1, e2]
  rw [if_neg c3]
  by_cases c4 : kc ≤ 31
  · rw [if_pos c4]
    have e1 : 8 + kc / 8 = 11 := by omega
    have e2 : kc % 8 = kc - 24 := by omega
    simp only [e1, e2]
  rw [if_neg c4]
  by_cases c5 : kc ≤ 39
  · rw [if_pos c5]
    have e1 : 8 + kc / 8 = 12 := by omega
    have e2 : kc % 8 = kc - 32 := by omega
    simp only [e1, e2]
  rw [if_neg c5]
  by_cases c6 : kc ≤ 47
  · rw [if_pos c6]
    have e1 : 8 + kc / 8 = 13 := by omega
    have e2 : kc % 8 = kc - 40 := by omega
    simp only [e1, e2]
  rw [if_neg c6]
  by_cases c7 : kc ≤ 55
  · rw [if_pos c7]
    have e1 : 8 + kc / 8 = 14 := by omega
    have e2 : kc % 8 = kc - 48 := by omega
    simp only [e1, e2]
  rw [if_neg c7]
  by_cases c8 : kc ≤ 63
  · rw [if_pos c8]
    have e1 : 8 + kc / 8 = 15 := by omega
    have e2 : kc % 8 = kc - 56 := by omega
    simp only [e1, e2]
  rw [if_neg c8]
  by_cases c9 : kc ≤ 71
  · rw [if_pos c9]
    have e1 : 8 + kc / 8 = 16 := by omega
    have e2 : kc % 8 = kc - 64 := by omega
    simp only [e1, e2]
  rw [if_neg c9]
  by_cases c10 : kc ≤ 79
  · rw [if_pos c10]
    have e1 : 8 + kc / 8 = 17 := by omega
    have e2 : kc % 8 = kc - 72 := by omega
    simp only [e1, e2]
  rw [if_neg c10]
  by_cases c11 : kc ≤ 87
  · rw [if_pos c11]
    have e1 : 8 + kc / 8 = 18 := by omega
    have e2 : kc % 8 = kc - 80 := by omega
    simp only [e1, e2]
  rw [if_neg c11]
  by_cases c12 : kc ≤ 95
  · rw [if_pos c12]
    have e1 : 8 + kc / 8 = 19 := by omega
    have e2 : kc % 8 = kc - 88 := by omega
    simp only [e1, e2]
  rw [if_neg c12]
  by_cases c13 : kc ≤ 103
  · rw [if_pos c13]
    have e1 : 8 + kc / 8 = 20 := by omega
    have e2 : kc % 8 = kc - 96 := by omega
    simp only [e1, e2]
  exact absurd h103 c13

theorem nkroBitmap_apply_lt8 (rep : Report) (kc : Nat) {i : Fin 21}
    (h : (i : Nat) < 8) : nkroBitmap rep kc i = rep i := by
  by_cases h3 : kc ≤ 3
  · unfold nkroBitmap
    simp [h3]
  · by_cases h103 : kc ≤ 103
    · rw [nkroBitmap_eq_setBit rep kc (by omega) h103]
      exact setBit_apply_ne rep _ _ (by
        intro he
        have := congrArg Fin.val he
        simp at this
        omega)
    · rw [nkroBitmap_of_gt rep kc (by omega)]

theorem nkroBitmap_testBit_mono (rep : Report) (kc : Nat) (i : Fin 21)
    (n : Nat) (h : Nat.testBit (rep i) n = true) :
    Nat.testBit (nkroBitmap rep kc i) n = true := by
  by_cases h3 : kc ≤ 3
  · unfold nkroBitmap
    simpa [h3] using h
  · by_cases h103 : kc ≤ 103
    · rw [nkroBitmap_eq_setBit rep kc (by omega) h103]
      exact setBit_testBit_mono rep _ _ i n h
    · rw [nkroBitmap_of_gt rep kc (by omega)]
      exact h

/-! ### Shape of `pressed` on each category -/

theorem pressed_error (rep : Report) (kc : Nat) (h : kc = 1 ∨ kc = 2 ∨ kc = 3) :
    pressed rep kc = setAll rep kc := by
  rcases h with rfl | rfl | rfl <;> rfl

theorem pressed_modifier (rep : Report) (kc : Nat) (h1 : 224 ≤ kc)
    (h2 : kc ≤ 231) :
    pressed rep kc =
      updateByte rep ⟨0, by omega⟩ (rep ⟨0, by omega⟩ ||| asModifierBit kc) := by
  rw [pressed, if_neg (by omega), if_neg (by omega),
    if_pos (by simp [isModifier]; omega)]

theorem pressed_ordinary (rep : Report) (kc : Nat) (h4 : 4 ≤ kc)
    (hmod : isModifier kc = false) :
    pressed rep kc = nkroBitmap (bootPlace rep kc) kc := by
  rw [pressed, if_neg (by omega), if_neg (by omega), if_neg (by simp [hmod])]

/-! ### The buffer view -/

theorem byteAt_lt (rep : Report) (i : Nat) (h : i < 21) :
    byteAt rep i = rep ⟨i, h⟩ := by
  have h' : i < (List.ofFn rep).length := by simpa using h
  rw [byteAt, asBytes, List.getD_eq_getElem _ _ h', List.getElem_ofFn]

theorem byteAt_ge (rep : Report) (i : Nat) (h : 21 ≤ i) :
    byteAt rep i = 0 := by
  have h' : (List.ofFn rep).length ≤ i := by simpa using h
  rw [byteAt, asBytes, List.getD_eq_default _ _ h']

theorem fromIter_append_one (l : List Nat) (k : Nat) :
    fromIter (l ++ [k]) = pressed (fromIter l) k := by
  simp [fromIter, List.foldl_append]

/-! ### The reserved byte is never touched -/

theorem pressed_apply_reserved (rep : Report) (kc : Nat) :
    pressed rep kc ⟨1, by omega⟩ = rep ⟨1, by omega⟩ := by
  by_cases h0 : kc = 0
  · subst h0; rfl
  by_cases herr : kc = 1 ∨ kc = 2 ∨ kc = 3
  · rw [pressed_error rep kc herr]
    exact setAll_apply_outside rep kc (Or.inl (by decide))
  by_cases hmod : isModifier kc = true
  · have h1 : 224 ≤ kc ∧ kc ≤ 231 := by simpa [isModifier] using hmod
    rw [pressed_modifier rep kc h1.1 h1.2]
    apply updateByte_apply_ne
    intro he
    have h10 : (1 : Nat) = (0 : Nat) := congrArg Fin.val he
    omega
  · push_neg at herr
    obtain ⟨e1, e2, e3⟩ := herr
    rw [pressed_ordinary rep kc (by omega) (by simpa using hmod)]
    rw [nkroBitmap_apply_lt8 _ _ (show ((⟨1, by omega⟩ : Fin 21) : Nat) < 8 by decide)]
    unfold bootPlace
    rcases hfind : findZeroFrom rep 2 19 with _ | j
    · exact setAll_apply_outside rep 1 (Or.inl (by decide))
    · have hge := (findZeroFrom_some_ge rep 19 2 j hfind).1
      apply updateByte_apply_ne
      intro he
      have : (1 : Nat) = (j : Nat) := congrArg Fin.val he
      omega

theorem foldl_pressed_reserved (l : List Nat) :
    ∀ rep : Report, List.foldl pressed rep l ⟨1, by omega⟩ = rep ⟨1, by omega⟩ := by
  induction l with
  | nil => intro rep; rfl
  | cons a l ih =>
    intro rep
    rw [List.foldl_cons, ih (pressed rep a), pressed_apply_reserved]

/-! ### The main invariant for sequences of up to 6 ordinary keys -/

theorem fromIter_ordinary_inv :
    ∀ (l : List Nat), (∀ k ∈ l, isOrdinary k) → l.length ≤ 6 →
      (∀ j (hj : j < 6), fromIter l ⟨2 + j, by omega⟩ = l.getD j 0) ∧
      (∀ k ∈ l, ∀ (hk : k ≤ 103),
        Nat.testBit (fromIter l ⟨8 + k / 8, by omega⟩) (k % 8) = true) := by
  intro l
  induction l using List.reverseRecOn with
  | nil =>
    intro _ _
    constructor
    · intro j hj; rfl
    · intro k hk; simp at hk
  | append_singleton l k ih =>
    intro hord hlen
    have hlen5 : l.length ≤ 5 := by
      simp [List.length_append] at hlen; omega
    obtain ⟨ihB, ihM⟩ := ih (fun x hx => hord x (by simp [hx])) (by omega)
    obtain ⟨hk4, hk255, hkmod⟩ := hord k (by simp)
    have hfind : findZeroFrom (fromIter l) 2 19 = some ⟨2 + l.length, by omega⟩ := by
      apply findZeroFrom_eq_some (fromIter l) 19 2 (2 + l.length) (by omega)
        (by omega) (by omega)
      · rw [ihB l.length (by omega)]
        exact List.getD_eq_default _ _ (Nat.le_refl _)
      · intro j hj h2j hjm
        have hj6 : j - 2 < 6 := by omega
        have e : (⟨j, hj⟩ : Fin 21) = ⟨2 + (j - 2), by omega⟩ := by
          simp only [Fin.mk.injEq]; omega
        rw [e, ihB (j - 2) hj6]
        have hjl : j - 2 < l.length := by omega
        rw [List.getD_eq_getElem _ _ hjl]
        obtain ⟨h4, _, _⟩ := hord (l[j - 2]) (by simp [List.getElem_mem, List.mem_append])
        omega
    have hboot : bootPlace (fromIter l) k
        = updateByte (fromIter l) ⟨2 + l.length, by omega⟩ k := by
      unfold bootPlace
      rw [hfind]
    have hmodf : isModifier k = false := by
      simp only [isModifier, Bool.and_eq_false_iff, decide_eq_false_iff_not]
      omega
    have hpress : fromIter (l ++ [k])
        = nkroBitmap (updateByte (fromIter l) ⟨2 + l.length, by omega⟩ k) k := by
      rw [fromIter_append_one, pressed_ordinary _ _ hk4 hmodf, hboot]
    constructor
    · intro j hj
      rw [hpress, nkroBitmap_apply_lt8 _ _ (show 2 + j < 8 by omega)]
      by_cases hjl : j = l.length
      · subst hjl
        rw [updateByte_apply_self, List.getD_append_right _ _ _ _ (Nat.le_refl _)]
        simp
      · have hne : (⟨2 + j, by omega⟩ : Fin 21) ≠ ⟨2 + l.length, by omega⟩ := by
          intro he
          have : 2 + j = 2 + l.length := congrArg Fin.val he
          omega
        rw [updateByte_apply_ne _ _ _ hne, ihB j hj]
        rcases Nat.lt_or_ge j l.length with hlt | hge
        · rw [List.getD_append _ _ _ _ hlt]
        · have hgt : l.length < j := by omega
          rw [List.getD_eq_default _ _ (by omega),
            List.getD_eq_default _ _ (by simp [List.length_append]; omega)]
    · intro x hx hx103
      rcases List.mem_append.mp hx with hmem | hmem
      · rw [hpress]
        apply nkroBitmap_testBit_mono
        have hne : (⟨8 + x / 8, by omega⟩ : Fin 21) ≠ ⟨2 + l.length, by omega⟩ := by
          intro he
          have : 8 + x / 8 = 2 + l.length := congrArg Fin.val he
          omega
        rw [updateByte_apply_ne _ _ _ hne]
        exact ihM x hmem hx103
      · have hxk : x = k := by simpa using hmem
        subst hxk
        rw [hpress, nkroBitmap_eq_setBit _ _ (by omega) hx103, setBit_apply_self]
        simp [Nat.testBit_or, Nat.shiftLeft_eq, Nat.testBit_two_pow_self]

/-! ### Byte-range preservation helpers -/

theorem or_lt_256 (x y : Nat) (hx : x < 256) (hy : y < 256) : x ||| y < 256 := by
  have e : (2 : Nat) ^ 8 = 256 := by norm_num
  have h := Nat.or_lt_two_pow (x := x) (y := y) (n := 8) (by omega) (by omega)
  omega

theorem one_shiftLeft_lt_256 (b : Nat) (hb : b ≤ 7) : 1 <<< b < 256 := by
  rw [Nat.shiftLeft_eq, one_mul]
  have h : (2 : Nat) ^ b ≤ 2 ^ 7 := Nat.pow_le_pow_right (by omega) hb
  have e : (2 : Nat) ^ 7 = 128 := by norm_num
  omega

/-! ## The claims -/

/-- C9: building a report from the empty sequence of key codes yields a
buffer of exactly 21 bytes, every byte zero. -/
theorem empty_build_all_zero : asBytes (fromIter []) = List.replicate 21 0 := by
  decide

/-- C8: building a report twice from the same sequence of key codes in the
same order, independently from empty, produces byte-identical buffers. -/
theorem build_deterministic (l1 l2 : List Nat) (h : l1 = l2) :
    asBytes (fromIter l1) = asBytes (fromIter l2) := by
  rw [h]

theorem build_deterministic_witness :
    asBytes (fromIter [4, 225]) = asBytes (fromIter [4, 225]) :=
  build_deterministic [4, 225] [4, 225] rfl

/-- C1 (failing-input evaluation): seven distinct ordinary keys 4…10 do NOT
leave all six boot bytes equal to the roll-over value 1 — the scan
`self.0[2..]` runs past the boot region, so the seventh key is written raw
into bitmap byte 10 and the roll-over branch is never taken.  The full
21-byte buffer is computed here; boot bytes 2…7 stay `[4,5,6,7,8,9]`. -/
theorem seven_keys_boot_not_rollover :
    asBytes (fromIter [4, 5, 6, 7, 8, 9, 10])
        = [0, 0, 4, 5, 6, 7, 8, 9, 240, 7, 10, 0, 0, 0, 0, 0, 0, 0, 0, 0, 0] ∧
      byteAt (fromIter [4, 5, 6, 7, 8, 9, 10]) 2 ≠ 1 := by
  decide

/-- C4 (failing-input evaluation): with the six boot slots full, the
out-of-bitmap-range key 104 is written raw into byte 10 of the report — a
byte of the bitmap region (bytes 8…20) — so its bits become set even though
104 is at the bitmap's capacity and must never touch the bitmap. -/
theorem out_of_range_key_corrupts_bitmap :
    asBytes (fromIter [4, 5, 6, 7, 8, 9, 104])
        = [0, 0, 4, 5, 6, 7, 8, 9, 240, 3, 104, 0, 0, 0, 0, 0, 0, 0, 0, 0, 0] ∧
      byteAt (fromIter [4, 5, 6, 7, 8, 9, 104]) 10 ≠ 0 := by
  decide

/-- C2 (counterexample): for the pressed-set {LeftShift = 225, A = 4, B = 5}
the claim's bytes are wrong: byte 0 is not 0b00000001 and bitmap bits 0 and 1
are not set. -/
theorem concrete_scenario_claim_false :
    ¬ (byteAt (fromIter [225, 4, 5]) 0 = 1 ∧
       Nat.testBit (byteAt (fromIter [225, 4, 5]) 8) 0 = true ∧
       Nat.testBit (byteAt (fromIter [225, 4, 5]) 8) 1 = true) := by
  decide

/-- C2 (amended): the pressed-set {LeftShift = 225, A = 4, B = 5} yields
byte 0 = 0b00000010 (LeftShift is at offset 1 from the start of the
modifier range; bit 0 belongs to LeftCtrl), boot bytes `[4,5,0,0,0,0]`, and
bitmap byte 8 = 48 = bits 4 and 5 (the bit position equals the usage ID
itself: the descriptor's usage minimum — the low-bound-offset — is 0), with
every other bitmap bit zero. -/
theorem concrete_scenario_actual_bytes :
    asBytes (fromIter [225, 4, 5])
      = [2, 0, 4, 5, 0, 0, 0, 0, 48, 0, 0, 0, 0, 0, 0, 0, 0, 0, 0, 0, 0] := by
  decide

/-- C3: for any sequence of at most 6 ordinary key codes incorporated in
order from empty, boot bytes 2…7 hold those key values in press order,
zero-padded on the right, and for every incorporated key that is within the
104-bit bitmap (usage ≤ 103) the bitmap bit at position equal to its usage
ID (byte `8 + k / 8`, bit `k % 8`) is set. -/
theorem boot_order_and_bitmap_bits (l : List Nat)
    (hord : ∀ k ∈ l, isOrdinary k) (hlen : l.length ≤ 6) :
    (∀ j, j < 6 → byteAt (fromIter l) (2 + j) = l.getD j 0) ∧
    (∀ k ∈ l, k ≤ 103 →
      Nat.testBit (byteAt (fromIter l) (8 + k / 8)) (k % 8) = true) := by
  obtain ⟨hB, hM⟩ := fromIter_ordinary_inv l hord hlen
  constructor
  · intro j hj
    rw [byteAt_lt _ _ (by omega)]
    exact hB j hj
  · intro k hk hk103
    rw [byteAt_lt _ _ (by omega)]
    exact hM k hk hk103

theorem boot_order_and_bitmap_bits_witness :
    byteAt (fromIter [4, 5]) 2 = 4 ∧
    Nat.testBit (byteAt (fromIter [4, 5]) 8) (5 % 8) = true := by
  have h := boot_order_and_bitmap_bits [4, 5] (by decide) (by decide)
  exact ⟨h.1 0 (by decide), h.2 5 (by decide) (by decide)⟩

/-- C5: a global-error code (1, 2 or 3) applied to any report state sets all
six boot bytes 2…7 to the code's value and leaves every other byte of the
report — modifier byte 0, reserved byte 1 and the bitmap bytes 8…20 —
unchanged. -/
theorem error_code_sets_boot_only (rep : Report) (kc : Nat)
    (h : kc = 1 ∨ kc = 2 ∨ kc = 3) :
    (∀ i, 2 ≤ i → i < 8 → byteAt (pressed rep kc) i = kc) ∧
    (∀ i, i < 21 → (i < 2 ∨ 8 ≤ i) → byteAt (pressed rep kc) i = byteAt rep i) := by
  have hp := pressed_error rep kc h
  constructor
  · intro i h2 h8
    rw [byteAt_lt _ i (by omega), hp]
    exact setAll_apply_boot rep kc h2 h8
  · intro i h21 hout
    rw [byteAt_lt _ i h21, byteAt_lt rep i h21, hp]
    exact setAll_apply_outside rep kc hout

theorem error_code_sets_boot_only_witness :
    byteAt (pressed (fromIter [4]) 1) 2 = 1 ∧
    byteAt (pressed (fromIter [4]) 1) 8 = byteAt (fromIter [4]) 8 := by
  have h := error_code_sets_boot_only (fromIter [4]) 1 (Or.inl rfl)
  exact ⟨h.1 2 (by decide) (by decide), h.2 8 (by decide) (by decide)⟩

/-- C6: a single modifier code (224 ≤ kc ≤ 231) incorporated into the empty
report makes byte 0 the single-bit value `2 ^ (kc - 224)` — exactly one bit,
at the code's offset from the start of the modifier range — and leaves every
other byte zero. -/
theorem single_modifier_sets_one_bit (kc : Nat) (h1 : 224 ≤ kc)
    (h2 : kc ≤ 231) :
    byteAt (pressed emptyReport kc) 0 = 2 ^ (kc - 224) ∧
    (∀ i, 1 ≤ i → byteAt (pressed emptyReport kc) i = 0) := by
  have hp := pressed_modifier emptyReport kc h1 h2
  constructor
  · rw [byteAt_lt _ 0 (by omega), hp, updateByte_apply_self]
    simp [emptyReport, asModifierBit, Nat.shiftLeft_eq]
  · intro i hi
    rcases Nat.lt_or_ge i 21 with hlt | hge
    · have hne : (⟨i, hlt⟩ : Fin 21) ≠ ⟨0, by omega⟩ := by
        intro he
        have hv : i = 0 := congrArg Fin.val he
        omega
      rw [byteAt_lt _ i hlt, hp, updateByte_apply_ne _ _ _ hne]
      rfl
    · exact byteAt_ge _ i hge

theorem single_modifier_sets_one_bit_witness :
    byteAt (pressed emptyReport 225) 0 = 2 ^ (225 - 224) ∧
    byteAt (pressed emptyReport 225) 2 = 0 := by
  have h := single_modifier_sets_one_bit 225 (by decide) (by decide)
  exact ⟨h.1, h.2 2 (by decide)⟩

/-- C7: the reserved byte 1 is zero in the empty report, is left unchanged
by every `pressed` call with every key code, and is therefore zero in every
report built from a sequence of key codes. -/
theorem reserved_byte_always_zero :
    byteAt emptyReport 1 = 0 ∧
    (∀ (rep : Report) (kc : Nat), byteAt (pressed rep kc) 1 = byteAt rep 1) ∧
    (∀ l : List Nat, byteAt (fromIter l) 1 = 0) := by
  refine ⟨by decide, ?_, ?_⟩
  · intro rep kc
    rw [byteAt_lt _ 1 (by omega), byteAt_lt rep 1 (by omega)]
    exact pressed_apply_reserved rep kc
  · intro l
    rw [byteAt_lt _ 1 (by omega)]
    exact foldl_pressed_reserved l emptyReport

/-- C10: `pressed` is total on every 8-bit key code and every report state,
and preserves the u8 range of every byte: all writes store either the code
itself (< 256) or an or-mask `1 << b` with shift amount b < 8, so no byte
ever leaves 0…255 and no overflow or out-of-bounds branch is reachable.
(Every buffer index is `Fin 21` by construction of the embedding.) -/
theorem pressed_bytes_in_range (rep : Report) (kc : Nat)
    (hrep : ∀ i, rep i < 256) (hkc : kc < 256) :
    ∀ i, pressed rep kc i < 256 := by
  intro i
  by_cases h0 : kc = 0
  · subst h0
    exact hrep i
  by_cases herr : kc = 1 ∨ kc = 2 ∨ kc = 3
  · rw [pressed_error rep kc herr]
    simp only [setAll]
    split
    · omega
    · exact hrep i
  by_cases hmod : isModifier kc = true
  · have h1 : 224 ≤ kc ∧ kc ≤ 231 := by simpa [isModifier] using hmod
    rw [pressed_modifier rep kc h1.1 h1.2]
    simp only [updateByte]
    split
    · exact or_lt_256 _ _ (hrep _) (one_shiftLeft_lt_256 (kc - 224) (by omega))
    · exact hrep i
  · push_neg at herr
    obtain ⟨e1, e2, e3⟩ := herr
    have hmodf : isModifier kc = false := by simpa using hmod
    rw [pressed_ordinary rep kc (by omega) hmodf]
    have hboot : ∀ j, bootPlace rep kc j < 256 := by
      intro j
      unfold bootPlace
      rcases hfind : findZeroFrom rep 2 19 with _ | z
      · show setAll rep 1 j < 256
        simp only [setAll]
        split
        · omega
        · exact hrep j
      · show updateByte rep z kc j < 256
        simp only [updateByte]
        split
        · omega
        · exact hrep j
    by_cases h103 : kc ≤ 103
    · rw [nkroBitmap_eq_setBit _ _ (by omega) h103]
      simp only [setBit, updateByte]
      split
      · exact or_lt_256 _ _ (hboot _) (one_shiftLeft_lt_256 (kc % 8) (by omega))
      · exact hboot i
    · rw [nkroBitmap_of_gt _ _ (by omega)]
      exact hboot i

theorem pressed_bytes_in_range_witness :
    pressed emptyReport 4 ⟨2, by omega⟩ < 256 :=
  pressed_bytes_in_range emptyReport 4 (by decide) (by decide) ⟨2, by omega⟩
